import Mathlib

/-! A shallow embedding of `propositions.py`, a propositional-logic truth-table
generator.  Strings are modelled as `List Char` (ASCII).  The program's
expression evaluator is Python's `eval` applied to the formula text with
letters bound to `Proposition` objects whose operators `~ & | + > <` are
overloaded; it is modelled here by a recursive-descent evaluator following
Python's expression grammar (precedence, left associativity, comparison
chaining with truthy operands) restricted to the characters the validator
admits.  The regex-based validator, tokenizer and classifier are translated
function by function.
-/

namespace Propositions

/-! Definitions: the operator overloads of `class Proposition`. -/

/-- Negation, `Proposition.__invert__`: `True if self.value is False else False`. -/
def pNot (x : Bool) : Bool := if x = false then true else false

/-- Conjunction, `Proposition.__and__`: `True if self.value and other.value
else False`; Python `and` yields the right operand when the left is truthy. -/
def pAnd (x y : Bool) : Bool := if (if x then y else x) = true then true else false

/-- Disjunction, `Proposition.__or__`: `True if self.value or other.value
else False`; Python `or` yields the left operand when it is truthy. -/
def pOr (x y : Bool) : Bool := if (if x then x else y) = true then true else false

/-- Exclusive disjunction, `Proposition.__add__`: `False if self.value ==
other.value else True`. -/
def pXor (x y : Bool) : Bool := if x = y then false else true

/-- Implication, `Proposition.__gt__`: `False if (self.value is True) and
(other.value is False) else True`. -/
def pImp (x y : Bool) : Bool := if x = true ∧ y = false then false else true

/-- Equivalence, `Proposition.__lt__`: `True if self.value == other.value
else False`. -/
def pIff (x y : Bool) : Bool := if x = y then true else false

/-- Dispatch of a comparison character (`>` or `<`) to its overload. -/
def cmpOp (c : Char) (x y : Bool) : Bool := if c = '>' then pImp x y else pIff x y

/-! Definitions: the expression evaluator, Python `eval` of the column text.

Python parses the six characters at these precedence levels, from loose to
tight: comparisons `>` `<` (which chain: `a>b>c` is `(a>b) and (b>c)`, and
since every `Proposition` object is truthy the chain's value is the last
comparison's value), then `|`, then `&`, then `+`, then unary `~`, then a
primary (a letter or a parenthesized expression).  Binary operators of equal
precedence associate to the left.  The parser is fueled; every recursive
call strictly decreases the fuel. -/

mutual

/-- Primary: a letter (a global `Proposition` variable) or `( expression )`. -/
def parseAtom : Nat → (Char → Bool) → List Char → Option (Bool × List Char)
  | 0, _, _ => none
  | fuel+1, env, s =>
    match s with
    | '(' :: rest =>
      match parseCmp fuel env rest with
      | some (v, ')' :: rest') => some (v, rest')
      | _ => none
    | c :: rest => if c.isLower then some (env c, rest) else none
    | [] => none

/-- Unary level: `~` applied (possibly repeatedly) to a primary. -/
def parseUnary : Nat → (Char → Bool) → List Char → Option (Bool × List Char)
  | 0, _, _ => none
  | fuel+1, env, s =>
    match s with
    | '~' :: rest =>
      match parseUnary fuel env rest with
      | some (v, rest') => some (pNot v, rest')
      | none => none
    | _ => parseAtom fuel env s

/-- Level of `+`, left-associative. -/
def parseXor : Nat → (Char → Bool) → List Char → Option (Bool × List Char)
  | 0, _, _ => none
  | fuel+1, env, s =>
    match parseUnary fuel env s with
    | some (v, rest) => parseXorRest fuel env v rest
    | none => none

def parseXorRest : Nat → (Char → Bool) → Bool → List Char → Option (Bool × List Char)
  | 0, _, _, _ => none
  | fuel+1, env, acc, s =>
    match s with
    | '+' :: rest =>
      match parseUnary fuel env rest with
      | some (v, rest') => parseXorRest fuel env (pXor acc v) rest'
      | none => none
    | _ => some (acc, s)

/-- Level of `&`, left-associative. -/
def parseAnd : Nat → (Char → Bool) → List Char → Option (Bool × List Char)
  | 0, _, _ => none
  | fuel+1, env, s =>
    match parseXor fuel env s with
    | some (v, rest) => parseAndRest fuel env v rest
    | none => none

def parseAndRest : Nat → (Char → Bool) → Bool → List Char → Option (Bool × List Char)
  | 0, _, _, _ => none
  | fuel+1, env, acc, s =>
    match s with
    | '&' :: rest =>
      match parseXor fuel env rest with
      | some (v, rest') => parseAndRest fuel env (pAnd acc v) rest'
      | none => none
    | _ => some (acc, s)

/-- Level of `|`, left-associative. -/
def parseOr : Nat → (Char → Bool) → List Char → Option (Bool × List Char)
  | 0, _, _ => none
  | fuel+1, env, s =>
    match parseAnd fuel env s with
    | some (v, rest) => parseOrRest fuel env v rest
    | none => none

def parseOrRest : Nat → (Char → Bool) → Bool → List Char → Option (Bool × List Char)
  | 0, _, _, _ => none
  | fuel+1, env, acc, s =>
    match s with
    | '|' :: rest =>
      match parseAnd fuel env rest with
      | some (v, rest') => parseOrRest fuel env (pOr acc v) rest'
      | none => none
    | _ => some (acc, s)

/-- Comparison level: a chain `e₀ op₁ e₁ … op_k e_k` evaluates every
adjacent comparison and `and`s the (always-truthy) results, so its value is
the last comparison's value; with no comparison it is just `e₀`. -/
def parseCmp : Nat → (Char → Bool) → List Char → Option (Bool × List Char)
  | 0, _, _ => none
  | fuel+1, env, s =>
    match parseOr fuel env s with
    | some (v, rest) => parseCmpRest fuel env v v rest
    | none => none

/-- Here `prev` is the previous comparison operand, `cur` the chain's value so far. -/
def parseCmpRest : Nat → (Char → Bool) → Bool → Bool → List Char → Option (Bool × List Char)
  | 0, _, _, _, _ => none
  | fuel+1, env, prev, cur, s =>
    match s with
    | c :: rest =>
      if c = '>' ∨ c = '<' then
        match parseOr fuel env rest with
        | some (v, rest') => parseCmpRest fuel env v (cmpOp c prev v) rest'
        | none => none
      else some (cur, c :: rest)
    | [] => some (cur, [])

end

/-- Evaluate a whole expression string as Python `eval` does; `none` models a
Python exception (which aborts the run). -/
def pyEvalWith (env : Char → Bool) (s : List Char) : Option Bool :=
  match parseCmp (8 * s.length + 8) env s with
  | some (v, []) => some v
  | _ => none

/-- One table cell: the source evaluates `eval(f"({code}).value")`, i.e. the
column's text wrapped in one extra pair of parentheses. -/
def evalCell (env : Char → Bool) (code : List Char) : Option Bool :=
  pyEvalWith env ('(' :: (code ++ [')']))

/-! Definitions: the atom registry. -/

/-- Model of `extract_simple_props`: `sorted(set(re.findall(r"([a-z])", s)))`, the
ascending list of the distinct letters of the formula. -/
def extract_simple_props (s : List Char) : List Char :=
  List.insertionSort (· ≤ ·) (s.filter Char.isLower).dedup

/-- Model of `itertools.product([True, False], repeat=n)`: all assignments, first
coordinate varying slowest, `True` before `False` in every position. -/
def truthCombinations : Nat → List (List Bool)
  | 0 => [[]]
  | n+1 =>
      ((truthCombinations n).map (fun l => true :: l)) ++
        ((truthCombinations n).map (fun l => false :: l))

/-- Read an assignment as a binary numeral, `true` = 1, head = most
significant bit. -/
def bitsToNat : List Bool → Nat
  | [] => 0
  | b :: rest => (if b then 1 else 0) * 2 ^ rest.length + bitsToNat rest

/-- The per-row variable binding: `simple_props[i].value = combo[i]`. -/
def envOf (atoms : List Char) (combo : List Bool) : Char → Bool :=
  fun c => (((atoms.zip combo).lookup c).getD false)

/-! Definitions: the tokenizer and token decompression. -/

/-- Python `str.replace(old, new)`, fueled: replace every non-overlapping
occurrence, scanning left to right.  Every step consumes at least one input
character, so fuel `s.length` never runs out. -/
def replaceAllAux (p r : List Char) : Nat → List Char → List Char
  | 0, s => s
  | fuel+1, s =>
    match s with
    | [] => []
    | c :: rest =>
      if p ≠ [] ∧ p.isPrefixOf (c :: rest) then
        r ++ replaceAllAux p r fuel ((c :: rest).drop p.length)
      else c :: replaceAllAux p r fuel rest

/-- Python `str.replace(old, new)` on whole strings. -/
def replaceAll (p r s : List Char) : List Char := replaceAllAux p r s.length s

/-- Whether `p` occurs in the string as a contiguous substring. -/
def occurs (p : List Char) : List Char → Bool
  | [] => p.isEmpty
  | c :: rest => p.isPrefixOf (c :: rest) || occurs p rest

/-- Decimal digits of a natural number, fueled (`n / 10 < n` for `n ≥ 10`,
so fuel `n + 1` never runs out). -/
def natDigitsAux : Nat → Nat → List Char
  | 0, _ => []
  | fuel+1, n =>
    if n < 10 then [Char.ofNat (48 + n)]
    else natDigitsAux fuel (n / 10) ++ [Char.ofNat (48 + n % 10)]

/-- The decimal digits of a natural number, as Python's `f"{counter}"`. -/
def natDigits (n : Nat) : List Char := natDigitsAux (n + 1) n

/-- Length of a match of `\([^()]*?\)` at the head of `l`: an opening
parenthesis, a run of non-parenthesis characters, and the first closing
parenthesis (the lazy quantifier stops there; an intervening `(` kills the
match). -/
def groupLen (l : List Char) : Option Nat :=
  match l with
  | '(' :: rest =>
    (fun content =>
      match rest.drop content.length with
      | ')' :: _ => some (content.length + 2)
      | _ => none)
      (rest.takeWhile (fun c => c ≠ '(' && c ≠ ')'))
  | _ => none

/-- Length of a match of `~?\([^()]*?\)` at the head of `l`. -/
def matchLen (l : List Char) : Option Nat :=
  match l with
  | '~' :: rest =>
    match groupLen rest with
    | some n => some (n + 1)
    | none => none
  | _ => groupLen l

/-- Scanner for `re.findall`: try a match at each position, emit it and
continue after its end (non-overlapping), else advance one character.  Each
step consumes at least one character, so fuel `s.length + 1` never runs out. -/
def findGroupsAux : Nat → List Char → List (List Char)
  | 0, _ => []
  | fuel+1, l =>
    match l with
    | [] => []
    | c :: rest =>
      match matchLen (c :: rest) with
      | some n => (c :: rest).take n :: findGroupsAux fuel ((c :: rest).drop n)
      | none => findGroupsAux fuel rest

/-- Model of `re.findall(r"(~?\([^()]*?\))", s)`: all non-overlapping matches, left to
right. -/
def findGroups (s : List Char) : List (List Char) :=
  findGroupsAux (s.length + 1) s

/-- The body of the `for` loop in `extract_tokens`: store each found group
under the next key and replace its occurrences with the key's digits. -/
def processGroups : List (List Char) → List Char → Nat → List (Nat × List Char) →
    List Char × Nat × List (Nat × List Char)
  | [], s, counter, toks => (s, counter, toks)
  | g :: gs, s, counter, toks =>
      processGroups gs (replaceAll g (natDigits counter) s) (counter + 1)
        (toks ++ [(counter, g)])

/-- The `while True` loop of `extract_tokens`, fueled; each productive pass
removes at least one parenthesis, so `s.length + 1` passes always suffice. -/
def extractLoop : Nat → List Char → Nat → List (Nat × List Char) →
    List Char × List (Nat × List Char)
  | 0, s, _, toks => (s, toks)
  | fuel+1, s, counter, toks =>
    match findGroups s with
    | [] => (s, toks)
    | g :: gs =>
      (fun r => extractLoop fuel r.1 r.2.1 r.2.2) (processGroups (g :: gs) s counter toks)

/-- Model of `extract_tokens`: the flat string and the token table. -/
def extract_tokens (s : List Char) : List Char × List (Nat × List Char) :=
  extractLoop (s.length + 1) s 0 []

/-- Model of `re.search(r"(\d+?)", s)`: the unanchored lazy `\d+?` matches exactly one
digit, the leftmost one. -/
def firstDigit : List Char → Option Char
  | [] => none
  | c :: rest => if c.isDigit then some c else firstDigit rest

/-- Key `int(i)` for the single matched digit character. -/
def digitVal (c : Char) : Nat := c.toNat - 48

/-- The `while True` loop of `decompress_tokens`, fueled: replace every
occurrence of the leftmost digit with that key's stored text, until no digit
remains.  A missing key would raise `KeyError` in the source; here the loop
stops. -/
def decompressLoop : Nat → List Char → List (Nat × List Char) → List Char
  | 0, s, _ => s
  | fuel+1, s, toks =>
    match firstDigit s with
    | none => s
    | some c =>
      match toks.lookup (digitVal c) with
      | none => s
      | some t => decompressLoop fuel (replaceAll [c] t s) toks

/-- Model of `decompress_tokens(input_string, tokens)`. -/
def decompress_tokens (s : List Char) (toks : List (Nat × List Char)) : List Char :=
  decompressLoop ((s.length + (toks.map (fun t => t.2.length)).sum + 1) * 512) s toks

/-! Definitions: the grammar validator inside `proposition_matcher`.

The validation regex is an alternation of eight capture groups.  `re.search`
scans positions left to right and, at each position, tries the alternatives
in their written order; the reported diagnostic is therefore the
lowest-numbered group that matches at the leftmost position where any group
matches.  Each `ruleK s p` below decides whether group `K` matches starting
at index `p`. -/

def allowedChar (c : Char) : Bool :=
  c.isLower || c = '(' || c = ')' || c = '~' || c = '&' || c = '|' ||
    c = '+' || c = '<' || c = '>'

def isBinOp (c : Char) : Bool := c = '&' || c = '|' || c = '+' || c = '<' || c = '>'

/-- Group 1, `(\d)`: a digit. -/
def rule1 (s : List Char) (p : Nat) : Bool :=
  match s[p]? with
  | some c => c.isDigit
  | none => false

/-- Group 2, `([^a-z()~&|+<>])`: a character outside the allowed set. -/
def rule2 (s : List Char) (p : Nat) : Bool :=
  match s[p]? with
  | some c => !allowedChar c
  | none => false

/-- Group 3, `([a-z]{2,})`: two adjacent letters. -/
def rule3 (s : List Char) (p : Nat) : Bool :=
  match s[p]?, s[p+1]? with
  | some c, some d => c.isLower && d.isLower
  | _, _ => false

/-- Group 4, `(\([^(~a-z])`: a group opening with a forbidden character. -/
def rule4 (s : List Char) (p : Nat) : Bool :=
  match s[p]?, s[p+1]? with
  | some c, some d => c = '(' && !(d = '(' || d = '~' || d.isLower)
  | _, _ => false

/-- Group 5, `([^a-z)]\))`: a group closing after a forbidden character. -/
def rule5 (s : List Char) (p : Nat) : Bool :=
  match s[p]?, s[p+1]? with
  | some c, some d => !(c.isLower || c = ')') && d = ')'
  | _, _ => false

/-- Group 6, `([a-z)]~)`: `~` directly after a letter or `)`. -/
def rule6 (s : List Char) (p : Nat) : Bool :=
  match s[p]?, s[p+1]? with
  | some c, some d => (c.isLower || c = ')') && d = '~'
  | _, _ => false

/-- Group 7, `([^)a-z][&|+<>] | [&|+<>][^a-z(~] | ^[&|+<>] | [&|+<>~]$)`:
a binary operator missing an operand; note the last alternative also matches
a trailing `~`. -/
def rule7 (s : List Char) (p : Nat) : Bool :=
  (match s[p]?, s[p+1]? with
   | some c, some d =>
       (!(c = ')' || c.isLower) && isBinOp d) ||
         (isBinOp c && !(d.isLower || d = '(' || d = '~'))
   | _, _ => false) ||
  (match s[p]? with
   | some c =>
       (decide (p = 0) && isBinOp c) ||
         ((isBinOp c || c = '~') && (s[p+1]?).isNone)
   | none => false)

/-- Group 8, `([a-z][(]|[)][a-z])`: a letter adjacent to a parenthesis. -/
def rule8 (s : List Char) (p : Nat) : Bool :=
  match s[p]?, s[p+1]? with
  | some c, some d => (c.isLower && d = '(') || (c = ')' && d.isLower)
  | _, _ => false

/-- Group `k` matches at position `p`. -/
def ruleK (k : Nat) (s : List Char) (p : Nat) : Bool :=
  match k with
  | 1 => rule1 s p
  | 2 => rule2 s p
  | 3 => rule3 s p
  | 4 => rule4 s p
  | 5 => rule5 s p
  | 6 => rule6 s p
  | 7 => rule7 s p
  | 8 => rule8 s p
  | _ => false

/-- The first-listed group matching at position `p` (regex alternation order). -/
def ruleAt (s : List Char) (p : Nat) : Option Nat :=
  if rule1 s p then some 1
  else if rule2 s p then some 2
  else if rule3 s p then some 3
  else if rule4 s p then some 4
  else if rule5 s p then some 5
  else if rule6 s p then some 6
  else if rule7 s p then some 7
  else if rule8 s p then some 8
  else none

/-- Model of `regex.search`, fueled: scan positions left to right for the
first match; returns the position and the matched group.  Starting from 0
with fuel `s.length` covers every position of the string. -/
def searchFromAux (s : List Char) : Nat → Nat → Option (Nat × Nat)
  | 0, _ => none
  | fuel+1, p =>
    if p < s.length then
      match ruleAt s p with
      | some r => some (p, r)
      | none => searchFromAux s fuel (p + 1)
    else none

/-- The diagnostic the validator would report: `none` when the rapid
validation tests all pass. -/
def firstViolation (s : List Char) : Option (Nat × Nat) := searchFromAux s s.length 0

/-- Normalization `re.sub(r"\s", "", input_string.lower())`. -/
def normalize (s : List Char) : List Char :=
  (s.map Char.toLower).filter (fun c => !c.isWhitespace)

/-! Definitions: the mutable module state and `proposition_matcher`. -/

/-- The module-level mutable state: the stored formula text
(`initial_string`), the atom registry (`simple_props`, kept as its sorted
letters), and the token table (`tokens`, written by the main loop). -/
structure PState where
  initial_string : List Char
  simple_props : List Char
  tokens : List Char × List (Nat × List Char)
deriving DecidableEq, Repr

/-- Model of `proposition_matcher`: normalizes, rejects empty input, stores the
normalized text in the global `initial_string`, runs the rapid validation
tests, tokenizes, rejects on leftover parentheses, and only then populates
the atom registry.  Returns the updated state and, on success, the tokens.
(The global `tokens` is assigned by the main loop, not here.) -/
def proposition_matcher (st : PState) (input : List Char) :
    PState × Option (List Char × List (Nat × List Char)) :=
  (fun ns =>
    if ns = [] then (st, none)
    else
      (fun st1 =>
        match firstViolation ns with
        | some _ => (st1, none)
        | none =>
          (fun toks =>
            if toks.1.any (fun c => c = '(' || c = ')') then (st1, none)
            else ({ st1 with simple_props := extract_simple_props ns }, some toks))
            (extract_tokens ns))
        { st with initial_string := ns })
    (normalize input)

/-! Definitions: the truth table generator and the classifier. -/

/-- Model of `get_table`: the header (atom names, each token's decompressed text, the
stored formula) and one value row per assignment; each non-atom column is
re-evaluated from its header text for each row. -/
def get_table (atoms : List Char) (toks : List (Nat × List Char)) (initial : List Char) :
    List (List Char) × List (List Bool × List (Option Bool)) :=
  (fun codes =>
    ((atoms.map (fun c => [c]) ++ codes),
      (truthCombinations atoms.length).map
        (fun combo => (combo, codes.map (fun code => evalCell (envOf atoms combo) code)))))
    (toks.map (fun t => decompress_tokens t.2 toks) ++ [initial])

/-- The final column of the value rows (the root formula's value per row). -/
def lastColumn (rows : List (List Bool × List (Option Bool))) : List (Option Bool) :=
  rows.map (fun r => r.2.getLastD none)

/-- Model of `get_proposition_type`, applied to the final column. -/
def get_proposition_type (c : List Bool) : String :=
  if ¬ (false ∈ c) then "valid (tautology, also satisfiable)"
  else if ¬ (true ∈ c) then "contradiction (unsatisfiable)"
  else if true ∈ c then
    if false ∈ c then "contingent (also satisfiable)" else "satisfiable"
  else ""

/-- One iteration of the main loop for one submitted formula: validate; on
success commit the tokens, build the table and classify.  `none` models a
rejected input (the source re-prompts). -/
def runFormula (st : PState) (input : List Char) :
    PState × Option ((List (List Char) × List (List Bool × List (Option Bool))) × String) :=
  match proposition_matcher st input with
  | (st', none) => (st', none)
  | (st', some toks) =>
    (fun st2 =>
      (fun t =>
        (st2, some (t, get_proposition_type ((lastColumn t.2).map (fun o => o.getD false)))))
        (get_table st2.simple_props toks.2 st2.initial_string))
      { st' with tokens := toks }

/-- The module state at interpreter start. -/
def initState : PState := ⟨[], [], ([], [])⟩

/-! Concrete inputs used by the counterexamples and witnesses below. -/

/-- An environment binding the letters `p`, `q`, `r`. -/
def env3 (a b c : Bool) : Char → Bool :=
  fun ch => if ch = 'p' then a else if ch = 'q' then b else if ch = 'r' then c else false

/-- A validated formula producing twelve tokens, the last referencing key 10. -/
def c5input : List Char := "((a)|(b)|(c)|(d)|(e)|(f)|(g)|(h)|(i)|(j)|(k))".toList

/-- A validated formula with a duplicated group and eleven allocated keys. -/
def c10input : List Char := "(a)&(a)&(b)&(c)&(d)&(e)&(f)&(g)&(h)&(i)&(j)".toList

/-- A module state left by a previous successful evaluation of `"p"`. -/
def st0 : PState := ⟨['p'], ['p'], (['p'], [])⟩

/-! Theorems. -/

/-- C1: on the (always nonempty) final column of the truth table, the
classifier returns the tautology string exactly when every row is true, the
contradiction string exactly when every row is false, and the contingent
string exactly when both values occur; no other classification — in
particular not the bare `"satisfiable"` label — is ever returned. -/
theorem claim_C1_classifier (col : List Bool) (h : col ≠ []) :
    (get_proposition_type col = "valid (tautology, also satisfiable)" ↔
      ∀ b ∈ col, b = true) ∧
    (get_proposition_type col = "contradiction (unsatisfiable)" ↔
      ∀ b ∈ col, b = false) ∧
    (get_proposition_type col = "contingent (also satisfiable)" ↔
      (true ∈ col ∧ false ∈ col)) ∧
    (get_proposition_type col = "valid (tautology, also satisfiable)" ∨
      get_proposition_type col = "contradiction (unsatisfiable)" ∨
      get_proposition_type col = "contingent (also satisfiable)") := by
  obtain ⟨b0, hb0⟩ : ∃ b, b ∈ col := by
    cases col with
    | nil => exact absurd rfl h
    | cons b t => exact ⟨b, by simp⟩
  by_cases hf : false ∈ col
  · by_cases ht : true ∈ col
    · have hres : get_proposition_type col = "contingent (also satisfiable)" := by
        simp [get_proposition_type, hf, ht]
      rw [hres]
      refine ⟨⟨fun hh => absurd hh (by decide), fun hall => absurd (hall false hf) (by decide)⟩,
        ⟨fun hh => absurd hh (by decide), fun hall => absurd (hall true ht) (by decide)⟩,
        ⟨fun _ => ⟨ht, hf⟩, fun _ => rfl⟩, Or.inr (Or.inr rfl)⟩
    · have hres : get_proposition_type col = "contradiction (unsatisfiable)" := by
        simp [get_proposition_type, hf, ht]
      rw [hres]
      refine ⟨⟨fun hh => absurd hh (by decide), fun hall => absurd (hall false hf) (by decide)⟩,
        ⟨fun _ => ?_, fun _ => rfl⟩,
        ⟨fun hh => absurd hh (by decide), fun hboth => absurd hboth.1 ht⟩,
        Or.inr (Or.inl rfl)⟩
      intro b hb
      cases b
      · rfl
      · exact absurd hb ht
  · have hres : get_proposition_type col = "valid (tautology, also satisfiable)" := by
      simp [get_proposition_type, hf]
    rw [hres]
    refine ⟨⟨fun _ => ?_, fun _ => rfl⟩,
      ⟨fun hh => absurd hh (by decide), fun hall => ?_⟩,
      ⟨fun hh => absurd hh (by decide), fun hboth => absurd hboth.2 hf⟩,
      Or.inl rfl⟩
    · intro b hb
      cases b
      · exact absurd hb hf
      · rfl
    · have hb0f := hall b0 hb0
      rw [hb0f] at hb0
      exact absurd hb0 hf

/-- C1, witness: a one-row all-true column is classified as a tautology. -/
theorem claim_C1_witness :
    get_proposition_type [true] = "valid (tautology, also satisfiable)" :=
  (claim_C1_classifier [true] (by decide)).1.mpr (by decide)

theorem truthCombinations_length (n : Nat) : (truthCombinations n).length = 2 ^ n := by
  induction n with
  | zero => simp [truthCombinations]
  | succ n ih => simp [truthCombinations, ih, pow_succ]; ring

theorem length_of_mem_truthCombinations {n : Nat} {l : List Bool}
    (h : l ∈ truthCombinations n) : l.length = n := by
  induction n generalizing l with
  | zero => simp [truthCombinations] at h; simp [h]
  | succ n ih =>
    simp only [truthCombinations, List.mem_append, List.mem_map] at h
    rcases h with ⟨l', hl', rfl⟩ | ⟨l', hl', rfl⟩ <;> simp [ih hl']

theorem truthCombinations_map_bitsToNat (n : Nat) :
    (truthCombinations n).map bitsToNat = (List.range (2 ^ n)).reverse := by
  induction n with
  | zero => decide
  | succ n ih =>
    have htrue : (truthCombinations n).map (fun l => bitsToNat (true :: l)) =
        (truthCombinations n).map (fun l => 2 ^ n + bitsToNat l) := by
      refine List.map_congr_left (fun l hl => ?_)
      simp [bitsToNat, length_of_mem_truthCombinations hl]
    have hfalse : (truthCombinations n).map (fun l => bitsToNat (false :: l)) =
        (truthCombinations n).map bitsToNat := by
      refine List.map_congr_left (fun l hl => ?_)
      simp [bitsToNat]
    calc (truthCombinations (n+1)).map bitsToNat
        = (truthCombinations n).map (fun l => bitsToNat (true :: l)) ++
            (truthCombinations n).map (fun l => bitsToNat (false :: l)) := by
          simp [truthCombinations, List.map_map, Function.comp_def]
      _ = ((truthCombinations n).map bitsToNat).map (fun m => 2 ^ n + m) ++
            (truthCombinations n).map bitsToNat := by
          rw [htrue, hfalse, List.map_map]; rfl
      _ = ((List.range (2 ^ n)).reverse).map (fun m => 2 ^ n + m) ++
            (List.range (2 ^ n)).reverse := by rw [ih]
      _ = ((List.range (2 ^ n)).map (fun m => 2 ^ n + m)).reverse ++
            (List.range (2 ^ n)).reverse := by rw [List.map_reverse]
      _ = (List.range (2 ^ n) ++ (List.range (2 ^ n)).map (fun m => 2 ^ n + m)).reverse := by
          rw [List.reverse_append]
      _ = (List.range (2 ^ (n+1))).reverse := by
          rw [show (2 : Nat) ^ (n+1) = 2 ^ n + 2 ^ n by ring, List.range_add]

/-- C2: the atom list is the ascending list of the distinct letters, the
table has exactly `2 ^ n` value rows, whose assignments are exactly the
Cartesian product of booleans over the atoms with the first (alphabetically
smallest) atom varying slowest and `true` before `false`; read as binary
numbers with the first atom as most significant bit, the rows descend from
`2 ^ n - 1` down to `0`. -/
theorem claim_C2_rows (input : List Char) (toks : List (Nat × List Char))
    (initial : List Char) :
    (extract_simple_props input).Sorted (· < ·) ∧
    ((get_table (extract_simple_props input) toks initial).2).length =
      2 ^ (extract_simple_props input).length ∧
    ((get_table (extract_simple_props input) toks initial).2).map (fun r => r.1) =
      truthCombinations (extract_simple_props input).length ∧
    ((get_table (extract_simple_props input) toks initial).2).map (fun r => bitsToNat r.1) =
      (List.range (2 ^ (extract_simple_props input).length)).reverse := by
  refine ⟨?_, ?_, ?_, ?_⟩
  · refine List.Sorted.lt_of_le (List.sorted_insertionSort _ _) ?_
    exact ((List.perm_insertionSort _ _).nodup_iff).mpr (List.nodup_dedup _)
  · simp [get_table, truthCombinations_length]
  · simp [get_table, Function.comp_def]
  · simp only [get_table, List.map_map]
    rw [show ((fun r : List Bool × List (Option Bool) => bitsToNat r.1) ∘
        (fun combo => (combo, (toks.map (fun t => decompress_tokens t.2 toks) ++ [initial]).map
          (fun code => evalCell (envOf (extract_simple_props input) combo) code)))) =
        bitsToNat from rfl]
    exact truthCombinations_map_bitsToNat _

/-- C3: for all boolean operand values, the six operators compute exactly the
specified truth functions: negation is `not`, conjunction `and`, disjunction
`or`, exclusive-or is inequality, implication is false exactly for
true→false, and equivalence is equality. -/
theorem claim_C3_operators :
    ∀ x y : Bool,
      pNot x = !x ∧ pAnd x y = (x && y) ∧ pOr x y = (x || y) ∧
      pXor x y = (x != y) ∧ (pImp x y = false ↔ x = true ∧ y = false) ∧
      pIff x y = (x == y) := by decide

/-- C4, counterexample: the claim says an unparenthesized chain is reduced
left-associatively, so `p|q&r` would be `(p|q)&r`, which at `p=T, q=F, r=F`
is false; the evaluator actually yields true there (Python gives `&` a
higher precedence than `|`). -/
theorem claim_C4_counterexample :
    evalCell (env3 true false false) ("p|q&r".toList) = some true ∧
    pAnd (pOr true false) false = false := by decide

/-- C4, amended: an unparenthesized chain follows Python's rules — `+` binds
tighter than `&`, which binds tighter than `|`, which binds tighter than the
comparisons `>` and `<`; equal-precedence operators associate left
(`p+q+r` is `(p+q)+r`); a comparison chain such as `p>q>r` or `p<q<r`
evaluates to the value of its last comparison because every intermediate
`Proposition` object is truthy. -/
theorem claim_C4_amended (a b c : Bool) :
    evalCell (env3 a b c) ("p|q&r".toList) = some (pOr a (pAnd b c)) ∧
    evalCell (env3 a b c) ("p>q>r".toList) = some (pImp b c) ∧
    evalCell (env3 a b c) ("p<q<r".toList) = some (pIff b c) ∧
    evalCell (env3 a b c) ("p+q+r".toList) = some (pXor (pXor a b) c) := by
  cases a <;> cases b <;> cases c <;> decide

/-- C5: tokenizing the validated formula
`((a)|(b)|(c)|(d)|(e)|(f)|(g)|(h)|(i)|(j)|(k))` yields twelve tokens, key 11
holding `(0|1|2|3|4|5|6|7|8|9|10)`; decompressing that token does not
reproduce the original substring: the lazy unanchored `\d+?` matches the
single digit `1` inside the two-digit reference `10`, so the result ends in
`(b)(a)` instead of `(k)`. -/
theorem claim_C5_bug :
    (extract_tokens c5input).2.lookup 11 = some ("(0|1|2|3|4|5|6|7|8|9|10)".toList) ∧
    decompress_tokens ("(0|1|2|3|4|5|6|7|8|9|10)".toList) (extract_tokens c5input).2 =
      ("((a)|(b)|(c)|(d)|(e)|(f)|(g)|(h)|(i)|(j)|(b)(a))".toList) ∧
    decompress_tokens ("(0|1|2|3|4|5|6|7|8|9|10)".toList) (extract_tokens c5input).2 ≠
      c5input := by decide

/-- C6, counterexample: the input `&1` contains the digit `1`, yet the
validator reports rule 7 (binary-operator arity), because `regex.search`
finds the match at the leftmost position (0, where `&1` matches group 7's
`[&|+<>][^a-z(~]`) before the digit at position 1 is ever considered. -/
theorem claim_C6_counterexample :
    firstViolation ("&1".toList) = some (0, 7) ∧
    '1' ∈ ("&1".toList) ∧ Char.isDigit '1' = true := by decide

theorem searchFromAux_eq_some {s : List Char} :
    ∀ fuel p q r, searchFromAux s fuel p = some (q, r) →
      p ≤ q ∧ q < s.length ∧ ruleAt s q = some r ∧
        ∀ m, p ≤ m → m < q → ruleAt s m = none := by
  intro fuel
  induction fuel with
  | zero => intro p q r h; simp [searchFromAux] at h
  | succ fuel ih =>
    intro p q r h
    simp only [searchFromAux] at h
    by_cases hp : p < s.length
    · rw [if_pos hp] at h
      cases h1 : ruleAt s p with
      | some r' =>
        rw [h1] at h
        simp only [Option.some.injEq, Prod.mk.injEq] at h
        obtain ⟨hq, hr⟩ := h
        subst hq
        subst hr
        exact ⟨le_refl _, hp, h1, fun m hm1 hm2 => by omega⟩
      | none =>
        rw [h1] at h
        obtain ⟨h2, h3, h4, h5⟩ := ih (p+1) q r h
        refine ⟨by omega, h3, h4, fun m hm1 hm2 => ?_⟩
        by_cases hmp : m = p
        · subst hmp; exact h1
        · exact h5 m (by omega) hm2
    · rw [if_neg hp] at h; simp at h

theorem ruleAt_some_imp {s : List Char} {p r : Nat} (h : ruleAt s p = some r) :
    ruleK r s p = true ∧ ∀ k, 0 < k → k < r → ruleK k s p = false := by
  unfold ruleAt at h
  split_ifs at h with h1 h2 h3 h4 h5 h6 h7 h8 <;> cases h <;>
    refine ⟨by simp [ruleK]; assumption, ?_⟩ <;> intro k hk0 hkr <;>
      interval_cases k <;> simp_all [ruleK]

/-- C6, amended: when multiple validation rules are violated, the reported
diagnostic is the first-listed rule that matches at the leftmost position
where any rule matches; the listed priority order is decisive only among
rules matching at that same position, so an input containing a digit can
receive a different diagnostic when another rule matches strictly earlier in
the string (e.g. `&1` is reported as BinaryOperatorArity). -/
theorem claim_C6_amended (s : List Char) (p r : Nat)
    (h : firstViolation s = some (p, r)) :
    ruleK r s p = true ∧ (∀ q, q < p → ruleAt s q = none) ∧
    (∀ k, 0 < k → k < r → ruleK k s p = false) := by
  obtain ⟨_, _, h3, h4⟩ := searchFromAux_eq_some s.length 0 p r h
  obtain ⟨hK, hmin⟩ := ruleAt_some_imp h3
  exact ⟨hK, fun q hq => h4 q (by omega) hq, hmin⟩

/-- C6, witness: on `&1` the violation reported by the scan is rule 7, which
indeed matches at position 0. -/
theorem claim_C6_witness : ruleK 7 ("&1".toList) 0 = true :=
  (claim_C6_amended ("&1".toList) 0 7 (by decide)).1

/-- C7, counterexample: inputs ending in `~` that the claim says are
reported as MisplacedNegation (rule 6) — its own examples `p&~` and `~` —
are in fact reported as rule 7 (binary-operator arity), via the
`[&|+<>~]$` alternative of group 7. -/
theorem claim_C7_counterexample :
    firstViolation ("p&~".toList) = some (2, 7) ∧
    firstViolation ("~".toList) = some (0, 7) := by decide

theorem searchFromAux_isSome {s : List Char} :
    ∀ fuel p q, p ≤ q → q < s.length → q < p + fuel → (ruleAt s q).isSome = true →
      (searchFromAux s fuel p).isSome = true := by
  intro fuel
  induction fuel with
  | zero => intro p q h1 h2 h3 h4; omega
  | succ fuel ih =>
    intro p q h1 h2 h3 h4
    simp only [searchFromAux]
    rw [if_pos (show p < s.length by omega)]
    cases h5 : ruleAt s p with
    | some r => simp
    | none =>
      refine ih (p+1) q ?_ h2 (by omega) h4
      rcases Nat.lt_or_ge p q with hlt | hge
      · omega
      · have hpq : p = q := by omega
        rw [hpq] at h5
        rw [h5] at h4
        simp at h4

theorem rule7_at_end {s : List Char} {p : Nat} (hp : s[p]? = some '~')
    (hend : s[p+1]? = none) : rule7 s p = true := by
  unfold rule7
  rw [hp, hend]
  simp [isBinOp]

theorem ruleAt_isSome_of_rule7 {s : List Char} {p : Nat} (h7 : rule7 s p = true) :
    (ruleAt s p).isSome = true := by
  unfold ruleAt
  split_ifs <;> simp_all

/-- C7, amended: every input ending in `~` is rejected, but the diagnostic
for the trailing `~` itself comes from rule 7's `[&|+<>~]$` alternative
(BinaryOperatorArity), not rule 6; rule 6 reports a trailing `~` only when
it is immediately preceded by a letter or `)` (as in `p~`), and in
particular the claim's own examples `p&~` and `~` are reported as
BinaryOperatorArity. -/
theorem claim_C7_amended :
    (∀ s : List Char, s[s.length - 1]? = some '~' → (firstViolation s).isSome = true) ∧
    firstViolation ("p&~".toList) = some (2, 7) ∧
    firstViolation ("~".toList) = some (0, 7) ∧
    firstViolation ("p~".toList) = some (0, 6) := by
  refine ⟨?_, by decide, by decide, by decide⟩
  intro s hlast
  have hne : s ≠ [] := by
    intro hnil
    rw [hnil] at hlast
    simp at hlast
  have hlen : 0 < s.length := List.length_pos.mpr hne
  have hnext : s[(s.length - 1) + 1]? = none := by
    apply List.getElem?_eq_none
    omega
  have h7 := rule7_at_end hlast hnext
  have hsome := ruleAt_isSome_of_rule7 h7
  exact searchFromAux_isSome s.length 0 (s.length - 1) (by omega) (by omega) (by omega) hsome

/-- C7, witness: the input `~` ends in `~` and is rejected. -/
theorem claim_C7_witness : (firstViolation ("~".toList)).isSome = true :=
  claim_C7_amended.1 ("~".toList) (by decide)

/-- C8, counterexample: submitting the invalid input `q&` from a state left
by a previous formula is rejected, yet the stored formula text
(`initial_string`) has been overwritten with the rejected input, because the
source assigns the global `initial_string` before running the validation
tests. -/
theorem claim_C8_counterexample :
    (proposition_matcher st0 ("q&".toList)).2 = none ∧
    (proposition_matcher st0 ("q&".toList)).1.initial_string ≠ st0.initial_string := by
  decide

/-- C8, amended: on every rejected input the Atom Registry and the token
table are unchanged (they are only written after all validation passes), but
the stored formula text is not protected: unless the input normalizes to the
empty string (rejected before the write), `initial_string` has already been
overwritten with the normalized input by the time validation runs. -/
theorem claim_C8_amended (st : PState) (input : List Char)
    (h : (proposition_matcher st input).2 = none) :
    (proposition_matcher st input).1.simple_props = st.simple_props ∧
    (proposition_matcher st input).1.tokens = st.tokens ∧
    (normalize input = [] → (proposition_matcher st input).1 = st) ∧
    (normalize input ≠ [] →
      (proposition_matcher st input).1.initial_string = normalize input) := by
  simp only [proposition_matcher] at h ⊢
  by_cases h1 : normalize input = []
  · rw [if_pos h1]
    exact ⟨rfl, rfl, fun _ => rfl, fun hne => absurd h1 hne⟩
  · rw [if_neg h1] at h ⊢
    cases h2 : firstViolation (normalize input) with
    | some v =>
      exact ⟨rfl, rfl, fun he => absurd he h1, fun _ => rfl⟩
    | none =>
      rw [h2] at h
      cases h3 : (extract_tokens (normalize input)).1.any (fun c => c = '(' || c = ')') with
      | false =>
        rw [h3] at h
        simp at h
      | true =>
        exact ⟨rfl, rfl, fun he => absurd he h1, fun _ => rfl⟩

/-- C8, witness: the rejected input `q&` leaves the atom registry unchanged. -/
theorem claim_C8_witness :
    (proposition_matcher st0 ("q&".toList)).1.simple_props = st0.simple_props :=
  (claim_C8_amended st0 ("q&".toList) (by decide)).1

theorem runFormula_snd_state_independent (st st' : PState) (f : List Char) :
    (runFormula st f).2 = (runFormula st' f).2 := by
  simp only [runFormula, proposition_matcher]
  by_cases h1 : normalize f = []
  · simp [h1]
  · cases h2 : firstViolation (normalize f) with
    | some v => simp [h1, h2]
    | none =>
      by_cases h3 :
          (extract_tokens (normalize f)).1.any (fun c => c = '(' || c = ')') = true
      · simp [h1, h2, h3]
      · simp [h1, h2, h3]

/-- C9: the truth table and classification produced for a formula submitted
after any earlier formula are identical to what they would be if it were the
first formula processed from the initial module state — the output component
of one main-loop iteration does not depend on the incoming state, because
every piece of state that `get_table` reads is rewritten from the new input
on successful validation. -/
theorem claim_C9_no_carryover (st : PState) (f1 f2 : List Char) :
    (runFormula (runFormula st f1).1 f2).2 = (runFormula initState f2).2 :=
  runFormula_snd_state_independent _ _ _

/-- C10, counterexample: on the validated formula
`(a)&(a)&(b)&…&(j)` the duplicated group `(a)` receives the fresh key 1
(besides key 0) as the claim says, but the claim's clause that such a key's
digits "never appear in the flat string" fails: the flat string is
`0&0&2&…&10` and the digit `1` occurs in it, inside the two-digit key `10`. -/
theorem claim_C10_counterexample :
    (extract_tokens c10input).2.lookup 0 = some ("(a)".toList) ∧
    (extract_tokens c10input).2.lookup 1 = some ("(a)".toList) ∧
    (extract_tokens c10input).1 = ("0&0&2&3&4&5&6&7&8&9&10".toList) ∧
    occurs (natDigits 1) (extract_tokens c10input).1 = true := by decide

theorem replaceAllAux_of_not_occurs {g d : List Char} :
    ∀ fuel s, occurs g s = false → replaceAllAux g d fuel s = s := by
  intro fuel
  induction fuel with
  | zero => intro s _; rfl
  | succ fuel ih =>
    intro s h
    cases s with
    | nil => rfl
    | cons c rest =>
      simp only [occurs, Bool.or_eq_false_iff] at h
      obtain ⟨h1, h2⟩ := h
      simp only [replaceAllAux]
      rw [if_neg]
      · rw [ih rest h2]
      · intro hc
        rw [hc.2] at h1
        simp at h1

/-- Python `str.replace` is the identity when the pattern does not occur. -/
theorem replaceAll_of_not_occurs {g d s : List Char} (h : occurs g s = false) :
    replaceAll g d s = s :=
  replaceAllAux_of_not_occurs s.length s h

theorem replaceAllAux_drop_isPrefixOf {g d : List Char} (hd : d ≠ [])
    (hdg : ∀ ch ∈ d, ch ∉ g) :
    ∀ fuel s k, 0 < k →
      (g.drop k).isPrefixOf (replaceAllAux g d fuel s) = true →
      (g.drop k).isPrefixOf s = true := by
  intro fuel
  induction fuel with
  | zero => intro s k _ h; exact h
  | succ fuel ih =>
    intro s k hk h
    cases s with
    | nil => exact h
    | cons c rest =>
      simp only [replaceAllAux] at h
      by_cases hpre : g ≠ [] ∧ g.isPrefixOf (c :: rest)
      · rw [if_pos hpre] at h
        cases hu : g.drop k with
        | nil => simp [hu]
        | cons u us =>
          exfalso
          rw [hu] at h
          cases d with
          | nil => exact absurd rfl hd
          | cons d0 ds =>
            rw [List.cons_append] at h
            rw [List.isPrefixOf_cons₂] at h
            simp only [Bool.and_eq_true, beq_iff_eq] at h
            have hu_mem : u ∈ g := by
              refine List.drop_subset k g ?_
              rw [hu]
              simp
            exact hdg d0 (by simp) (h.1 ▸ hu_mem)
      · rw [if_neg hpre] at h
        cases hu : g.drop k with
        | nil => simp [hu]
        | cons u us =>
          rw [hu] at h
          rw [List.isPrefixOf_cons₂] at h
          simp only [Bool.and_eq_true, beq_iff_eq] at h
          have hus : us = g.drop (k + 1) := by
            have ht := congrArg List.tail hu
            rw [List.tail_drop] at ht
            simpa using ht.symm
          have h2 := ih rest (k + 1) (by omega) (by rw [← hus]; exact h.2)
          rw [List.isPrefixOf_cons₂]
          simp only [Bool.and_eq_true, beq_iff_eq]
          exact ⟨h.1, by rw [hus]; exact h2⟩

theorem occurs_append_of_disjoint {g : List Char} (hg : g ≠ []) :
    ∀ d t, (∀ ch ∈ d, ch ∉ g) → occurs g (d ++ t) = occurs g t := by
  intro d
  induction d with
  | nil => intro t _; rfl
  | cons d0 ds ih =>
    intro t hdis
    simp only [List.cons_append, occurs, List.append_eq]
    rw [ih t (fun ch hch => hdis ch (by simp [hch]))]
    have hpre : g.isPrefixOf (d0 :: (ds ++ t)) = false := by
      cases g with
      | nil => exact absurd rfl hg
      | cons g0 gs =>
        have hne : (g0 == d0) = false := by
          simp only [beq_eq_false_iff_ne, ne_eq]
          intro heq
          exact hdis d0 (by simp) (by rw [← heq]; simp)
        rw [List.isPrefixOf_cons₂, hne]
        simp
    rw [hpre]
    simp

theorem replaceAllAux_removes {g d : List Char} (hg : g ≠ []) (hd : d ≠ [])
    (hdg : ∀ ch ∈ d, ch ∉ g) :
    ∀ fuel s, s.length ≤ fuel → occurs g (replaceAllAux g d fuel s) = false := by
  intro fuel
  induction fuel with
  | zero =>
    intro s hs
    have hnil : s = [] := List.length_eq_zero.mp (by omega)
    subst hnil
    simp [replaceAllAux, occurs, hg]
  | succ fuel ih =>
    intro s hs
    cases s with
    | nil => simp [replaceAllAux, occurs, hg]
    | cons c rest =>
      simp only [replaceAllAux]
      by_cases hpre : g ≠ [] ∧ g.isPrefixOf (c :: rest)
      · rw [if_pos hpre]
        rw [occurs_append_of_disjoint hg d _ hdg]
        apply ih
        have hglen : 0 < g.length := List.length_pos.mpr hg
        simp only [List.length_drop, List.length_cons]
        simp only [List.length_cons] at hs
        omega
      · rw [if_neg hpre]
        simp only [occurs]
        have hrest : occurs g (replaceAllAux g d fuel rest) = false := by
          apply ih
          simp only [List.length_cons] at hs
          omega
        rw [hrest, Bool.or_false]
        by_contra hcon
        simp only [Bool.not_eq_false] at hcon
        obtain ⟨g0, gs, hgval⟩ : ∃ g0 gs, g = g0 :: gs := by
          cases g with
          | nil => exact absurd rfl hg
          | cons g0 gs => exact ⟨g0, gs, rfl⟩
        subst hgval
        rw [List.isPrefixOf_cons₂] at hcon
        simp only [Bool.and_eq_true, beq_iff_eq] at hcon
        have htrans := replaceAllAux_drop_isPrefixOf hd hdg fuel rest 1 (by omega)
          (show ((g0 :: gs).drop 1).isPrefixOf (replaceAllAux (g0 :: gs) d fuel rest) = true
            from hcon.2)
        have hfull : (g0 :: gs).isPrefixOf (c :: rest) = true := by
          rw [List.isPrefixOf_cons₂]
          simp only [Bool.and_eq_true, beq_iff_eq]
          exact ⟨hcon.1, htrans⟩
        exact hpre ⟨hg, hfull⟩

/-- Python `str.replace(g, d, s)` leaves no occurrence of `g` behind when the
replacement's characters are disjoint from `g`'s. -/
theorem replaceAll_removes {g d s : List Char} (hg : g ≠ []) (hd : d ≠ [])
    (hdg : ∀ ch ∈ d, ch ∉ g) : occurs g (replaceAll g d s) = false :=
  replaceAllAux_removes hg hd hdg s.length s (le_refl _)

theorem processGroups_mem_mono :
    ∀ gs s c toks (x : Nat × List Char), x ∈ toks → x ∈ (processGroups gs s c toks).2.2 := by
  intro gs
  induction gs with
  | nil => intro s c toks x hx; exact hx
  | cons g gs ih =>
    intro s c toks x hx
    exact ih _ _ _ x (by simp [hx])

theorem processGroups_mem :
    ∀ gs s c toks i, ∀ hi : i < gs.length,
      (c + i, gs.get ⟨i, hi⟩) ∈ (processGroups gs s c toks).2.2 := by
  intro gs
  induction gs with
  | nil => intro s c toks i hi; simp at hi
  | cons g gs ih =>
    intro s c toks i hi
    cases i with
    | zero =>
      have hmem : (c, g) ∈ toks ++ [(c, g)] := by simp
      have h1 := processGroups_mem_mono gs (replaceAll g (natDigits c) s) (c + 1)
        (toks ++ [(c, g)]) (c, g) hmem
      exact h1
    | succ i =>
      have h1 := ih (replaceAll g (natDigits c) s) (c + 1) (toks ++ [(c, g)]) i
        (by simpa using hi)
      have hidx : c + 1 + i = c + (i + 1) := by omega
      rw [hidx] at h1
      exact h1

theorem extractLoop_mem_mono :
    ∀ fuel s c toks (x : Nat × List Char), x ∈ toks → x ∈ (extractLoop fuel s c toks).2 := by
  intro fuel
  induction fuel with
  | zero => intro s c toks x hx; exact hx
  | succ fuel ih =>
    intro s c toks x hx
    simp only [extractLoop]
    cases hfg : findGroups s with
    | nil => exact hx
    | cons g gs =>
      exact ih (processGroups (g :: gs) s c toks).1 (processGroups (g :: gs) s c toks).2.1
        (processGroups (g :: gs) s c toks).2.2 x (processGroups_mem_mono _ _ _ _ x hx)

theorem extract_tokens_mem_findGroups (s : List Char) :
    ∀ i, ∀ hi : i < (findGroups s).length,
      (i, (findGroups s).get ⟨i, hi⟩) ∈ (extract_tokens s).2 := by
  unfold extract_tokens
  simp only [extractLoop]
  cases hfg : findGroups s with
  | nil =>
    intro i hi
    simp at hi
  | cons g gs =>
    intro i hi
    have h1 := processGroups_mem (g :: gs) s 0 [] i hi
    have h2 := extractLoop_mem_mono s.length (processGroups (g :: gs) s 0 []).1
      (processGroups (g :: gs) s 0 []).2.1 (processGroups (g :: gs) s 0 []).2.2 _ h1
    simpa using h2

/-- C10, amended: each occurrence found by a tokenization pass allocates its
own fresh key (so a repeated group text gets additional keys), while the
string replacement for a group substitutes every occurrence at once (the
later duplicate's replacement is a no-op since its text is already gone), so
a duplicate key's digits are never themselves written into the working
string — though they may still appear inside another key's digits once keys
reach two digits; and the truth table carries one (hence duplicate) column
per allocated key, equal in label and in value on every row. -/
theorem claim_C10_amended :
    (∀ s : List Char, ∀ i, ∀ hi : i < (findGroups s).length,
        (i, (findGroups s).get ⟨i, hi⟩) ∈ (extract_tokens s).2) ∧
    (∀ g d s : List Char, occurs g s = false → replaceAll g d s = s) ∧
    (∀ g d s : List Char, g ≠ [] → d ≠ [] → (∀ ch ∈ d, ch ∉ g) →
        occurs g (replaceAll g d s) = false) ∧
    (∀ (atoms initial : List Char) (toks : List (Nat × List Char)) (i j : Nat)
        (hi : i < toks.length) (hj : j < toks.length),
        (toks.get ⟨i, hi⟩).2 = (toks.get ⟨j, hj⟩).2 →
        ((get_table atoms toks initial).1[atoms.length + i]? =
            (get_table atoms toks initial).1[atoms.length + j]? ∧
          ∀ row ∈ (get_table atoms toks initial).2, row.2[i]? = row.2[j]?)) := by
  refine ⟨extract_tokens_mem_findGroups, fun g d s h => replaceAll_of_not_occurs h,
    fun g d s hg hd hdg => replaceAll_removes hg hd hdg, ?_⟩
  intro atoms initial toks i j hi hj hij
  have hcodes : ∀ k (hk : k < toks.length),
      (toks.map (fun t => decompress_tokens t.2 toks) ++ [initial])[k]? =
        some (decompress_tokens (toks.get ⟨k, hk⟩).2 toks) := by
    intro k hk
    rw [List.getElem?_append_left (by simpa using hk), List.getElem?_map]
    simp [List.getElem?_eq_getElem hk]
  have hdec : decompress_tokens (toks.get ⟨i, hi⟩).2 toks =
      decompress_tokens (toks.get ⟨j, hj⟩).2 toks := by rw [hij]
  have hhead : ∀ k (hk : k < toks.length),
      (get_table atoms toks initial).1[atoms.length + k]? =
        some (decompress_tokens (toks.get ⟨k, hk⟩).2 toks) := by
    intro k hk
    simp only [get_table]
    rw [List.getElem?_append_right (by simp)]
    simp only [List.length_map, Nat.add_sub_cancel_left]
    exact hcodes k hk
  constructor
  · rw [hhead i hi, hhead j hj, hdec]
  · intro row hrow
    simp only [get_table, List.mem_map] at hrow
    obtain ⟨combo, _, rfl⟩ := hrow
    simp only [List.getElem?_map]
    rw [hcodes i hi, hcodes j hj, hdec]

/-- C10, witness: on `(a)&(a)` the second occurrence of `(a)` allocates the
fresh key 1 in the token table. -/
theorem claim_C10_witness :
    (1, "(a)".toList) ∈ (extract_tokens ("(a)&(a)".toList)).2 := by
  have heq : (findGroups ("(a)&(a)".toList)).get ⟨1, by decide⟩ = "(a)".toList := by decide
  rw [← heq]
  exact claim_C10_amended.1 ("(a)&(a)".toList) 1 (by decide)

end Propositions
